import Mathlib

/-!
A verification development for the survalyzer-compare questionnaire diff
engine.  The Python modules `src/models.py`, `src/compare.py`,
`src/sections.py` and `src/master.py` are embedded shallowly: Python
dataclasses become structures, Python dicts become association lists with
the dict's lookup and insertion semantics made explicit, and the float
similarity scores become rationals.  The `difflib.SequenceMatcher.ratio`
library call (standard library, not part of this repository) is kept as an
explicit function parameter `simf` of every definition that uses it; no
property proved below depends on its value.
-/

namespace Survalyzer

/-! ## Python dict model

A Python `dict` with string keys is represented as a `List (String × α)`.
A dict built by a comprehension over a list with duplicate keys keeps the
value of the **last** occurrence, so lookup takes the last matching entry.
Dicts grown by assignment (`d[k] = v`) keep the original position of an
existing key and append new keys, which `dinsert` mirrors.  For dicts with
unique keys the two views agree. -/

/-- Python `d.get(k)`: value of the last entry whose key is `k`. -/
def dget (m : List (String × α)) (k : String) : Option α :=
  ((m.filter (fun p => p.1 = k)).getLast?).map (fun p => p.2)

/-- The key list of a dict. -/
def keysOf (m : List (String × α)) : List String :=
  m.map (fun p => p.1)

/-- Python `d[k] = v`: overwrite in place if the key exists, else append. -/
def dinsert (m : List (String × α)) (k : String) (v : α) : List (String × α) :=
  if m.any (fun p => p.1 = k) then
    m.map (fun p => if p.1 = k then (k, v) else p)
  else m ++ [(k, v)]

/-- Helper for `dedupFirst`: emit elements not yet in `seen`. -/
def dedupFirstGo (seen : List String) : List String → List String
  | [] => []
  | x :: xs =>
    if seen.contains x then dedupFirstGo seen xs
    else x :: dedupFirstGo (seen ++ [x]) xs

/-- Python `dict.fromkeys(l)` / "append if not seen": first-seen order,
duplicates dropped. -/
def dedupFirst (l : List String) : List String := dedupFirstGo [] l

theorem mem_dedupFirstGo (l : List String) :
    ∀ (seen : List String) (x : String),
      x ∈ dedupFirstGo seen l ↔ x ∈ l ∧ x ∉ seen := by
  induction l with
  | nil => intro seen x; simp [dedupFirstGo]
  | cons a as ih =>
    intro seen x
    rw [dedupFirstGo]
    by_cases ha : seen.contains a
    · rw [if_pos ha, ih]
      have haseen : a ∈ seen := by simpa using ha
      constructor
      · rintro ⟨hin, hout⟩
        exact ⟨List.mem_cons_of_mem _ hin, hout⟩
      · rintro ⟨hin, hout⟩
        rcases List.mem_cons.mp hin with rfl | hin
        · exact absurd haseen hout
        · exact ⟨hin, hout⟩
    · rw [if_neg ha]
      have haseen : a ∉ seen := by simpa using ha
      simp only [List.mem_cons, ih, List.mem_append, List.mem_singleton]
      constructor
      · rintro (rfl | ⟨hin, hout⟩)
        · exact ⟨Or.inl rfl, haseen⟩
        · exact ⟨Or.inr hin, fun hc => hout (Or.inl hc)⟩
      · rintro ⟨rfl | hin, hout⟩
        · exact Or.inl rfl
        · by_cases hx : x = a
          · exact Or.inl hx
          · refine Or.inr ⟨hin, ?_⟩
            intro hc
            rcases hc with hc | hc
            · exact hout hc
            · exact hx (by simpa using hc)

theorem mem_dedupFirst (l : List String) (x : String) :
    x ∈ dedupFirst l ↔ x ∈ l := by
  unfold dedupFirst
  rw [mem_dedupFirstGo]
  simp

theorem nodup_dedupFirstGo (l : List String) :
    ∀ seen : List String, (dedupFirstGo seen l).Nodup := by
  induction l with
  | nil => intro seen; simp [dedupFirstGo]
  | cons a as ih =>
    intro seen
    rw [dedupFirstGo]
    by_cases ha : seen.contains a
    · rw [if_pos ha]; exact ih seen
    · rw [if_neg ha]
      refine List.nodup_cons.mpr ⟨?_, ih (seen ++ [a])⟩
      intro hmem
      have := (mem_dedupFirstGo as (seen ++ [a]) a).mp hmem
      simp at this

theorem nodup_dedupFirst (l : List String) : (dedupFirst l).Nodup :=
  nodup_dedupFirstGo l []

/-- Appending a second list only appends elements that are neither in the
first list nor in `seen`. -/
theorem dedupFirstGo_append (xs : List String) :
    ∀ (ys seen : List String), ∃ zs,
      dedupFirstGo seen (xs ++ ys) = dedupFirstGo seen xs ++ zs ∧
      ∀ z ∈ zs, z ∉ xs ∧ z ∉ seen := by
  induction xs with
  | nil =>
    intro ys seen
    refine ⟨dedupFirstGo seen ys, by simp [dedupFirstGo], ?_⟩
    intro z hz
    exact ⟨by simp, ((mem_dedupFirstGo ys seen z).mp hz).2⟩
  | cons a as ih =>
    intro ys seen
    rw [List.cons_append, dedupFirstGo, dedupFirstGo]
    by_cases ha : seen.contains a
    · rw [if_pos ha, if_pos ha]
      rcases ih ys seen with ⟨zs, heq, hzs⟩
      refine ⟨zs, heq, ?_⟩
      intro z hz
      rcases hzs z hz with ⟨h1, h2⟩
      refine ⟨?_, h2⟩
      intro hc
      rcases List.mem_cons.mp hc with rfl | hc
      · exact h2 (by simpa using ha)
      · exact h1 hc
    · rw [if_neg ha, if_neg ha]
      rcases ih ys (seen ++ [a]) with ⟨zs, heq, hzs⟩
      refine ⟨zs, by rw [heq, List.cons_append], ?_⟩
      intro z hz
      rcases hzs z hz with ⟨h1, h2⟩
      have hza : z ≠ a := by
        intro hc
        exact h2 (by simp [hc])
      refine ⟨?_, fun hc => h2 (by simp [hc])⟩
      intro hc
      rcases List.mem_cons.mp hc with hc | hc
      · exact hza hc
      · exact h1 hc

/-- `dedupFirst` of a concatenation: the first block is deduped in place
and whatever follows avoids the first block entirely. -/
theorem dedupFirst_append (xs ys : List String) :
    ∃ zs, dedupFirst (xs ++ ys) = dedupFirst xs ++ zs ∧ ∀ z ∈ zs, z ∉ xs := by
  rcases dedupFirstGo_append xs ys [] with ⟨zs, heq, hzs⟩
  exact ⟨zs, heq, fun z hz => (hzs z hz).1⟩

/-- `dget` of a dict built by mapping a list into key/value pairs is the
value of the last element with the given key. -/
theorem dget_map_last (l : List β) (key : β → String) (val : β → α) (c : String) :
    dget (l.map (fun x => (key x, val x))) c
      = ((l.filter (fun x => key x = c)).getLast?).map val := by
  unfold dget
  rw [List.filter_map]
  have hcomp : ((fun p : String × α => decide (p.1 = c)) ∘ fun x => (key x, val x))
      = fun x => decide (key x = c) := rfl
  rw [hcomp, List.getLast?_map, Option.map_map]
  rfl

theorem dget_eq_none_of_not_mem_keys (m : List (String × α)) (k : String)
    (h : k ∉ keysOf m) : dget m k = none := by
  unfold dget
  have : m.filter (fun p => p.1 = k) = [] := by
    rw [List.filter_eq_nil_iff]
    intro p hp hcontra
    exact h (List.mem_map.mpr ⟨p, hp, by simpa using hcontra⟩)
  rw [this]
  rfl

theorem mem_of_dget_eq_some (m : List (String × α)) (k : String) (v : α)
    (h : dget m k = some v) : (k, v) ∈ m := by
  unfold dget at h
  rcases Option.map_eq_some'.mp h with ⟨p, hget, hval⟩
  rcases List.mem_getLast?_eq_getLast (Option.mem_def.mpr hget) with ⟨hne, hpeq⟩
  have hp : p ∈ m.filter (fun p => decide (p.1 = k)) := hpeq ▸ List.getLast_mem hne
  have hkey : p.1 = k := by
    have := List.of_mem_filter hp
    simpa using this
  have hmem := List.mem_of_mem_filter hp
  have : p = (k, v) := by
    cases p
    simp only at hkey hval
    rw [hkey, hval]
  rwa [this] at hmem

/-! ## Data model (src/models.py)

Each Python dataclass becomes a structure with the same fields and
defaults.  Note: the `Question` dataclass in `src/models.py` declares **no**
`section_index` field, although other modules pass or read one; the field
list below is the faithful transcription. -/

structure LocalizedText where
  language : String
  text : String
deriving Repr, DecidableEq

structure AnswerOption where
  id : Int
  code : String
  texts : List LocalizedText := []
  allow_text_entry : Bool := false
  exclusive : Bool := false
deriving Repr, DecidableEq

structure MatrixColumn where
  id : Int
  code : String
  texts : List LocalizedText := []
  choice_type : String := "Text"
deriving Repr, DecidableEq

structure MatrixColumnGroup where
  id : Int
  columns : List MatrixColumn := []
  choice_type : String := "Text"
deriving Repr, DecidableEq

structure MatrixRow where
  id : Int
  code : String
  texts : List LocalizedText := []
deriving Repr, DecidableEq

structure Question where
  id : Int
  code : String
  element_type : String
  texts : List LocalizedText := []
  hint_texts : List LocalizedText := []
  choices : List AnswerOption := []
  matrix_rows : List MatrixRow := []
  matrix_column_groups : List MatrixColumnGroup := []
  force_response : Bool := false
  section_name : Option String := none
  conditions : Option (List String) := none
deriving Repr, DecidableEq

/-! ## Code normalization (src/models.py, normalize_code) -/

/-- `_CODE_ALIASES` from models.py. -/
def CODE_ALIASES : List (String × String) :=
  [("IPRErgenisse", "IPRErgebnisse")]

/-- Python `_CODE_ALIASES.get(code, code)`. -/
def aliasGet (code : String) : String :=
  (dget CODE_ALIASES code).getD code

/-- `code.startswith('IPR')`. -/
def startsWithIPR (code : String) : Bool :=
  match code.data with
  | c0 :: c1 :: c2 :: _ => c0 = 'I' ∧ c1 = 'P' ∧ c2 = 'R'
  | _ => false

/-- `len(code) > 1 and code[0] in 'FfIi' and code[1].isupper()`. -/
def stripCondition (code : String) : Bool :=
  match code.data with
  | c0 :: c1 :: _ =>
    (c0 = 'F' ∨ c0 = 'f' ∨ c0 = 'I' ∨ c0 = 'i') ∧ c1.isUpper
  | _ => false

/-- `normalize_code` from src/models.py lines 19-36, transcribed branch by
branch: empty codes are returned as-is, codes starting with the acronym
`IPR` only get the alias substitution, otherwise the one-letter F/f/I/i
edition prefix is stripped when the second character is uppercase and the
alias table is applied to the result. -/
def normalize_code (code : String) : String :=
  if code.data.isEmpty then code
  else if startsWithIPR code then aliasGet code
  else
    let code2 := if stripCondition code then String.mk (code.data.drop 1) else code
    aliasGet code2

/-- `Question.normalized_code` property. -/
def Question.normalized_code (q : Question) : String :=
  normalize_code q.code

/-- C2: code_bug evidence.  `normalize_code` is not idempotent: on `"FIX"`
the first pass strips the `F` leaving `"IX"`, and a second pass strips the
`I` leaving `"X"`, although both the spec (§4.1, §8) and the code's own
comment ("This ensures normalization is idempotent") promise
`normalize(normalize(x)) == normalize(x)` for all `x`. -/
theorem normalize_code_not_idempotent :
    normalize_code "FIX" = "IX" ∧
    normalize_code (normalize_code "FIX") = "X" ∧
    normalize_code (normalize_code "FIX") ≠ normalize_code "FIX" := by
  refine ⟨?_, ?_, ?_⟩ <;> decide

/-- C3: counterexample.  `"IPRTest"` starts with `I` and its second
character `P` is uppercase, so the claim says the first character is
dropped (then alias-substituted, yielding `"PRTest"`); the code instead
short-circuits on the `IPR` acronym and returns the code unchanged. -/
theorem normalize_code_ipr_counterexample :
    "IPRTest".data.head? = some 'I' ∧
    "IPRTest".data.get? 1 = some 'P' ∧
    ('P').isUpper = true ∧
    normalize_code "IPRTest" = "IPRTest" ∧
    aliasGet (String.mk ("IPRTest".data.drop 1)) = "PRTest" ∧
    ("IPRTest" : String) ≠ "PRTest" := by
  refine ⟨?_, ?_, ?_, ?_, ?_, ?_⟩ <;> decide

/-- C3 (amended): the prefix-strip rule holds exactly as claimed **except**
for codes starting with the acronym `IPR`, which are returned with only the
alias substitution applied (no strip).  For every other non-empty code
whose first character is in {F, f, I, i} and whose second character is an
uppercase letter, exactly the first character is dropped before the alias
table is applied; all remaining codes (the empty string included, and codes
with a lowercase second character) are returned unchanged modulo alias
substitution.  The claim's concrete examples hold. -/
theorem normalize_code_strip_rule (code : String) :
    (normalize_code code =
      if startsWithIPR code then aliasGet code
      else if stripCondition code then aliasGet (String.mk (code.data.drop 1))
      else aliasGet code) ∧
    normalize_code "FUnternehmenArt" = "UnternehmenArt" ∧
    normalize_code "IUnternehmenArt" = "UnternehmenArt" ∧
    normalize_code "Istartup" = "Istartup" := by
  refine ⟨?_, by decide, by decide, by decide⟩
  unfold normalize_code
  by_cases hempty : code.data.isEmpty
  · have hnil : code.data = [] := by simpa using hempty
    have hipr : startsWithIPR code = false := by
      unfold startsWithIPR
      rw [hnil]
    have hstrip : stripCondition code = false := by
      unfold stripCondition
      rw [hnil]
    rw [hipr, hstrip]
    simp only [hempty, if_true, Bool.false_eq_true, if_false]
    show code = aliasGet code
    have : code = "" := by
      cases code
      simp only at hnil
      rw [hnil]
    rw [this]
    decide
  · simp only [hempty, Bool.false_eq_true, if_false]
    by_cases hipr : startsWithIPR code = true
    · simp [hipr]
    · simp only [hipr, Bool.false_eq_true, if_false]
      by_cases hs : stripCondition code = true
      · simp [hs]
      · simp [hs]

/-! ## Diff result model (src/models.py) -/

structure TextDiff where
  language : String
  status : String
  similarity : ℚ
  old_text : String := ""
  new_text : String := ""
deriving Repr, DecidableEq

structure ChoiceDiff where
  code : String
  status : String
  text_diffs : List TextDiff := []
deriving Repr, DecidableEq

structure QuestionDiff where
  code : String
  element_type : String
  status : String
  text_diffs : List TextDiff := []
  choice_diffs : List ChoiceDiff := []
  matrix_row_diffs : List ChoiceDiff := []
  matrix_column_diffs : List ChoiceDiff := []
deriving Repr, DecidableEq

structure ComparisonResult where
  source_a : String
  source_b : String
  question_diffs : List QuestionDiff := []
deriving Repr, DecidableEq

/-! ## Comparison engine (src/compare.py)

`simf` stands for `difflib.SequenceMatcher(None, a, b).ratio()`, the
standard-library similarity score, kept abstract; every theorem below holds
for an arbitrary `simf`. -/

def DEFAULT_SIMILARITY_THRESHOLD : ℚ := 9/10

/-- `_similarity`: exact equality short-circuits to 1.0. -/
def _similarity (simf : String → String → ℚ) (a b : String) : ℚ :=
  if a = b then 1 else simf a b

/-- `_text_status`. -/
def _text_status (score threshold : ℚ) : String :=
  if score = 1 then "exact"
  else if threshold ≤ score then "similar"
  else "different"

/-- Python `str.lower()`, modelled character-wise. -/
def pyLower (s : String) : String := String.mk (s.data.map Char.toLower)

/-- Code-point lexicographic string comparison (Python's `<=` on str). -/
def charListLe : List Char → List Char → Bool
  | [], _ => true
  | _ :: _, [] => false
  | a :: as, b :: bs => if a < b then true else if b < a then false else charListLe as bs

def strLe (a b : String) : Bool := charListLe a.data b.data

def insertStr (x : String) : List String → List String
  | [] => [x]
  | y :: ys => if strLe x y then x :: y :: ys else y :: insertStr x ys

/-- Python `sorted` on a list of strings (insertion sort, stable). -/
def sortStrings (l : List String) : List String := l.foldr insertStr []

/-- `_build_text_index`: dict comprehension mapping lowercased language
code to text (so on duplicate keys the last entry wins under `dget`). -/
def _build_text_index (texts : List LocalizedText) : List (String × String) :=
  texts.map (fun lt => (pyLower lt.language, lt.text))

/-- `compare_texts`. -/
def compare_texts (simf : String → String → ℚ) (old new : List LocalizedText)
    (threshold : ℚ) : List TextDiff :=
  let old_map := _build_text_index old
  let new_map := _build_text_index new
  let all_langs := sortStrings (dedupFirst (keysOf old_map ++ keysOf new_map))
  all_langs.map (fun lang =>
    match dget old_map lang, dget new_map lang with
    | none, newText =>
      { language := lang, status := "added", similarity := 0,
        old_text := "", new_text := newText.getD "" }
    | some oldText, none =>
      { language := lang, status := "removed", similarity := 0,
        old_text := oldText, new_text := "" }
    | some oldText, some newText =>
      let score := _similarity simf oldText newText
      { language := lang, status := _text_status score threshold,
        similarity := score, old_text := oldText, new_text := newText })

/-- The duck-typed `.code`/`.texts` interface `_compare_coded_items`
relies on (spec §4.3/§9: "a shared interface capturing exactly those two
fields"). -/
class CodedItem (α : Type) where
  codeOf : α → String
  textsOf : α → List LocalizedText

instance : CodedItem AnswerOption := ⟨AnswerOption.code, AnswerOption.texts⟩

instance : CodedItem MatrixRow := ⟨MatrixRow.code, MatrixRow.texts⟩

instance : CodedItem MatrixColumn := ⟨MatrixColumn.code, MatrixColumn.texts⟩

/-- `_compare_coded_items`. -/
def _compare_coded_items {α : Type} [CodedItem α] (simf : String → String → ℚ)
    (old_items new_items : List α) (threshold : ℚ) : List ChoiceDiff :=
  let old_map := old_items.map (fun i => (CodedItem.codeOf i, i))
  let new_map := new_items.map (fun i => (CodedItem.codeOf i, i))
  let all_codes := dedupFirst (old_items.map (fun i => CodedItem.codeOf i)
    ++ new_items.map (fun i => CodedItem.codeOf i))
  all_codes.map (fun c =>
    match dget old_map c with
    | none => { code := c, status := "added" }
    | some old_item =>
      match dget new_map c with
      | none => { code := c, status := "removed" }
      | some new_item =>
        let text_diffs := compare_texts simf (CodedItem.textsOf old_item)
          (CodedItem.textsOf new_item) threshold
        let any_change := text_diffs.any (fun td => td.status != "exact")
        { code := c,
          status := if any_change then "text_changed" else "unchanged",
          text_diffs := text_diffs })

/-- `compare_choices`. -/
def compare_choices (simf : String → String → ℚ)
    (old new : List AnswerOption) (threshold : ℚ) : List ChoiceDiff :=
  _compare_coded_items simf old new threshold

/-- `compare_matrix_rows`. -/
def compare_matrix_rows (simf : String → String → ℚ)
    (old new : List MatrixRow) (threshold : ℚ) : List ChoiceDiff :=
  _compare_coded_items simf old new threshold

/-- `compare_matrix_columns`: flatten column groups, then compare. -/
def compare_matrix_columns (simf : String → String → ℚ)
    (old_groups new_groups : List MatrixColumnGroup) (threshold : ℚ) :
    List ChoiceDiff :=
  let old_cols := (old_groups.map (fun grp => grp.columns)).flatten
  let new_cols := (new_groups.map (fun grp => grp.columns)).flatten
  _compare_coded_items simf old_cols new_cols threshold

/-- `compare_questions`. -/
def compare_questions (simf : String → String → ℚ) (old new : Question)
    (threshold : ℚ) : QuestionDiff :=
  let text_diffs := compare_texts simf old.texts new.texts threshold
  let matrixQ := old.element_type == "Matrix" || new.element_type == "Matrix"
  let choice_diffs :=
    if matrixQ then [] else compare_choices simf old.choices new.choices threshold
  let matrix_row_diffs :=
    if matrixQ then compare_matrix_rows simf old.matrix_rows new.matrix_rows threshold
    else []
  let matrix_col_diffs :=
    if matrixQ then
      compare_matrix_columns simf old.matrix_column_groups new.matrix_column_groups threshold
    else []
  let has_text_change := text_diffs.any (fun td => td.status != "exact")
  let has_structure_change := (choice_diffs ++ matrix_row_diffs ++ matrix_col_diffs).any
    (fun cd => cd.status == "added" || cd.status == "removed")
  let has_child_text_change := (choice_diffs ++ matrix_row_diffs ++ matrix_col_diffs).any
    (fun cd => cd.status == "text_changed")
  let status :=
    if has_structure_change then "structure_changed"
    else if has_text_change || has_child_text_change then "text_changed"
    else "identical"
  { code := old.code, element_type := old.element_type, status := status,
    text_diffs := text_diffs, choice_diffs := choice_diffs,
    matrix_row_diffs := matrix_row_diffs, matrix_column_diffs := matrix_col_diffs }

/-- `compare_surveys`.  The `none, none` arm is unreachable for codes drawn
from `all_codes` (each such code occurs on at least one side); Python would
raise an `AttributeError` there (`qb.element_type` with `qb = None`). -/
def compare_surveys (simf : String → String → ℚ)
    (questions_a questions_b : List Question) (source_a source_b : String)
    (threshold : ℚ) : ComparisonResult :=
  let map_a := questions_a.map (fun q => (q.normalized_code, q))
  let map_b := questions_b.map (fun q => (q.normalized_code, q))
  let all_codes := dedupFirst (questions_a.map (fun q => q.normalized_code)
    ++ questions_b.map (fun q => q.normalized_code))
  let diffs := all_codes.map (fun norm_code =>
    match dget map_a norm_code, dget map_b norm_code with
    | none, some qb =>
      { code := norm_code, element_type := qb.element_type, status := "added" }
    | some qa, none =>
      { code := norm_code, element_type := qa.element_type, status := "removed" }
    | some qa, some qb =>
      { compare_questions simf qa qb threshold with code := norm_code }
    | none, none =>
      { code := norm_code, element_type := "", status := "added" })
  { source_a := source_a, source_b := source_b, question_diffs := diffs }

/-- C10: the diff of two matched questions carries the old question's
element_type, and (before the caller overwrites it) the old question's
code; no field records the new side's type. -/
theorem compare_questions_carries_old_type_and_code
    (simf : String → String → ℚ) (old new : Question) (threshold : ℚ) :
    (compare_questions simf old new threshold).element_type = old.element_type ∧
    (compare_questions simf old new threshold).code = old.code :=
  ⟨rfl, rfl⟩

/-- C9: if either side is a Matrix question, row and column diffs are
computed (columns flattened across all groups) and choice diffs stay
empty; otherwise choice diffs are computed and both matrix diff lists stay
empty. -/
theorem compare_questions_matrix_branching
    (simf : String → String → ℚ) (old new : Question) (threshold : ℚ) :
    if old.element_type = "Matrix" ∨ new.element_type = "Matrix" then
      (compare_questions simf old new threshold).choice_diffs = [] ∧
      (compare_questions simf old new threshold).matrix_row_diffs =
        _compare_coded_items simf old.matrix_rows new.matrix_rows threshold ∧
      (compare_questions simf old new threshold).matrix_column_diffs =
        _compare_coded_items simf
          ((old.matrix_column_groups.map (fun grp => grp.columns)).flatten)
          ((new.matrix_column_groups.map (fun grp => grp.columns)).flatten) threshold
    else
      (compare_questions simf old new threshold).choice_diffs =
        _compare_coded_items simf old.choices new.choices threshold ∧
      (compare_questions simf old new threshold).matrix_row_diffs = [] ∧
      (compare_questions simf old new threshold).matrix_column_diffs = [] := by
  by_cases h : old.element_type = "Matrix" ∨ new.element_type = "Matrix"
  · have hb : (old.element_type == "Matrix" || new.element_type == "Matrix") = true := by
      rcases h with h | h <;> simp [h]
    rw [if_pos h]
    refine ⟨?_, ?_, ?_⟩ <;>
      simp only [compare_questions, hb, if_true, compare_matrix_rows,
        compare_matrix_columns, compare_choices]
  · have hb : (old.element_type == "Matrix" || new.element_type == "Matrix") = false := by
      push_neg at h
      simp [h.1, h.2]
    rw [if_neg h]
    refine ⟨?_, ?_, ?_⟩ <;>
      simp only [compare_questions, hb, Bool.false_eq_true, if_false,
        compare_matrix_rows, compare_matrix_columns, compare_choices]

/-- C4: the overall status of a matched-question diff follows the claimed
precedence over the diff's own field lists: any added/removed entry among
the combined choice/row/column diffs gives structure_changed; otherwise a
non-exact top-level text diff or a text_changed coded-item diff gives
text_changed; otherwise identical. -/
theorem compare_questions_status_precedence
    (simf : String → String → ℚ) (old new : Question) (threshold : ℚ) :
    (compare_questions simf old new threshold).status =
      (let d := compare_questions simf old new threshold
       let combined := d.choice_diffs ++ d.matrix_row_diffs ++ d.matrix_column_diffs
       if ∃ cd ∈ combined, cd.status = "added" ∨ cd.status = "removed" then
         "structure_changed"
       else if (∃ td ∈ d.text_diffs, td.status ≠ "exact") ∨
           (∃ cd ∈ combined, cd.status = "text_changed") then
         "text_changed"
       else "identical") := by
  simp only [compare_questions]
  set cds := (if (old.element_type == "Matrix" || new.element_type == "Matrix") then []
    else compare_choices simf old.choices new.choices threshold) with hcds
  set mrds := (if (old.element_type == "Matrix" || new.element_type == "Matrix") then
    compare_matrix_rows simf old.matrix_rows new.matrix_rows threshold else []) with hmrds
  set mcds := (if (old.element_type == "Matrix" || new.element_type == "Matrix") then
    compare_matrix_columns simf old.matrix_column_groups new.matrix_column_groups threshold
    else []) with hmcds
  set tds := compare_texts simf old.texts new.texts threshold with htds
  show (if (cds ++ mrds ++ mcds).any (fun cd => cd.status == "added" || cd.status == "removed")
      then "structure_changed"
      else if tds.any (fun td => td.status != "exact")
          || (cds ++ mrds ++ mcds).any (fun cd => cd.status == "text_changed")
        then "text_changed" else "identical") =
    (if ∃ cd ∈ cds ++ mrds ++ mcds, cd.status = "added" ∨ cd.status = "removed"
      then "structure_changed"
      else if (∃ td ∈ tds, td.status ≠ "exact") ∨
          (∃ cd ∈ cds ++ mrds ++ mcds, cd.status = "text_changed")
        then "text_changed" else "identical")
  by_cases hA : ∃ cd ∈ cds ++ mrds ++ mcds, cd.status = "added" ∨ cd.status = "removed"
  · have hAb : ((cds ++ mrds ++ mcds).any
        (fun cd => cd.status == "added" || cd.status == "removed")) = true := by
      rcases hA with ⟨cd, hmem, hst⟩
      refine List.any_eq_true.mpr ⟨cd, hmem, ?_⟩
      rcases hst with h | h <;> simp [h]
    rw [if_pos hA, hAb, if_pos rfl]
  · have hAb : ((cds ++ mrds ++ mcds).any
        (fun cd => cd.status == "added" || cd.status == "removed")) = false := by
      rw [Bool.eq_false_iff]
      intro hcontra
      rcases List.any_eq_true.mp hcontra with ⟨cd, hmem, hst⟩
      rcases Bool.or_eq_true_iff.mp hst with h | h
      · exact hA ⟨cd, hmem, Or.inl (by simpa using h)⟩
      · exact hA ⟨cd, hmem, Or.inr (by simpa using h)⟩
    rw [if_neg hA, hAb]
    simp only [Bool.false_eq_true, if_false]
    by_cases hB : (∃ td ∈ tds, td.status ≠ "exact") ∨
        (∃ cd ∈ cds ++ mrds ++ mcds, cd.status = "text_changed")
    · have hBb : (tds.any (fun td => td.status != "exact")
          || (cds ++ mrds ++ mcds).any (fun cd => cd.status == "text_changed")) = true := by
        rcases hB with ⟨td, hmem, hst⟩ | ⟨cd, hmem, hst⟩
        · exact Bool.or_eq_true_iff.mpr (Or.inl (List.any_eq_true.mpr ⟨td, hmem, by simpa using hst⟩))
        · exact Bool.or_eq_true_iff.mpr (Or.inr (List.any_eq_true.mpr ⟨cd, hmem, by simp [hst]⟩))
      rw [if_pos hB, hBb, if_pos rfl]
    · have hBb : (tds.any (fun td => td.status != "exact")
          || (cds ++ mrds ++ mcds).any (fun cd => cd.status == "text_changed")) = false := by
        rw [Bool.eq_false_iff]
        intro hcontra
        rcases Bool.or_eq_true_iff.mp hcontra with h | h
        · rcases List.any_eq_true.mp h with ⟨td, hmem, hst⟩
          exact hB (Or.inl ⟨td, hmem, by simpa using hst⟩)
        · rcases List.any_eq_true.mp h with ⟨cd, hmem, hst⟩
          exact hB (Or.inr ⟨cd, hmem, by simpa using hst⟩)
      rw [if_neg hB, hBb]
      simp only [Bool.false_eq_true, if_false]

/-! ## Claims about map building and enumeration order (C7, C8, C1) -/

/-- Spec-modelled from the claim's wording for C7: a per-language index in
which the FIRST occurrence of a (case-insensitively compared) language code
wins.  The code under test (`_build_text_index`) is compared against
this. -/
def buildTextIndexFirstWins (texts : List LocalizedText) : List (String × String) :=
  texts.foldl (fun m lt =>
    if (keysOf m).contains (pyLower lt.language) then m
    else m ++ [(pyLower lt.language, lt.text)]) []

/-- C7: counterexample.  With `old = [de ↦ "a", DE ↦ "b"]` and `new = []`,
the single removed-diff reports `old_text = "b"`: the LAST of the two
entries for the language `de` won, while the claim (first occurrence wins)
would give `"a"`, as the spec-modelled first-wins index shows. -/
theorem compare_texts_duplicate_language_counterexample :
    ((compare_texts (fun _ _ => 0) [⟨"de", "a"⟩, ⟨"DE", "b"⟩] [] (9/10)).map
      (fun td => td.old_text)) = ["b"] ∧
    dget (buildTextIndexFirstWins [⟨"de", "a"⟩, ⟨"DE", "b"⟩]) "de" = some "a" ∧
    ("b" : String) ≠ "a" := by
  refine ⟨?_, ?_, ?_⟩ <;> decide

/-- The text of the last entry of `texts` whose language code equals
`lang` case-insensitively (with `lang` already lowercased). -/
def lastTextFor (texts : List LocalizedText) (lang : String) : Option String :=
  ((texts.filter (fun lt => pyLower lt.language = lang)).getLast?).map
    (fun lt => lt.text)

/-- C7 (amended): `compare_texts` compares language codes
case-insensitively, but on duplicate language codes within one list the
LAST occurrence wins, not the first: each side's text for a language is
the text of the last entry carrying that (lowercased) language code. -/
theorem compare_texts_case_insensitive_last_wins
    (simf : String → String → ℚ) (old new : List LocalizedText) (threshold : ℚ) :
    compare_texts simf old new threshold =
      (sortStrings (dedupFirst (old.map (fun lt => pyLower lt.language)
        ++ new.map (fun lt => pyLower lt.language)))).map (fun lang =>
        match lastTextFor old lang, lastTextFor new lang with
        | none, newText =>
          { language := lang, status := "added", similarity := 0,
            old_text := "", new_text := newText.getD "" }
        | some oldText, none =>
          { language := lang, status := "removed", similarity := 0,
            old_text := oldText, new_text := "" }
        | some oldText, some newText =>
          { language := lang,
            status := _text_status (_similarity simf oldText newText) threshold,
            similarity := _similarity simf oldText newText,
            old_text := oldText, new_text := newText }) := by
  unfold compare_texts
  have hkeys : ∀ l : List LocalizedText,
      keysOf (_build_text_index l) = l.map (fun lt => pyLower lt.language) := by
    intro l
    simp [keysOf, _build_text_index]
  have hget : ∀ (l : List LocalizedText) (lang : String),
      dget (_build_text_index l) lang = lastTextFor l lang := by
    intro l lang
    exact dget_map_last l (fun lt => pyLower lt.language) (fun lt => lt.text) lang
  simp only [hkeys, hget]

/-- The last item of `items` whose code equals `c`. -/
def lastItemWith {α : Type} [CodedItem α] (items : List α) (c : String) : Option α :=
  (items.filter (fun i => CodedItem.codeOf i = c)).getLast?

/-- C8: the coded-item differ enumerates the union of codes in first-seen
order across old-then-new and classifies each code: only-new gives an
added diff with no text diffs, only-old gives removed, and a code present
on both sides carries the full `compare_texts` diff list with status
text_changed exactly when some per-language diff is not exact (the sides
being represented by the last item with that code, per dict semantics). -/
theorem compare_coded_items_spec {α : Type} [CodedItem α]
    (simf : String → String → ℚ) (old_items new_items : List α) (threshold : ℚ) :
    _compare_coded_items simf old_items new_items threshold =
      (dedupFirst (old_items.map (fun i => CodedItem.codeOf i)
        ++ new_items.map (fun i => CodedItem.codeOf i))).map (fun c =>
        match lastItemWith old_items c, lastItemWith new_items c with
        | none, _ => { code := c, status := "added" }
        | some _, none => { code := c, status := "removed" }
        | some o, some n =>
          let tds := compare_texts simf (CodedItem.textsOf o)
            (CodedItem.textsOf n) threshold
          { code := c,
            status := if ∃ td ∈ tds, td.status ≠ "exact" then "text_changed"
              else "unchanged",
            text_diffs := tds }) := by
  unfold _compare_coded_items
  have hget : ∀ (items : List α) (c : String),
      dget (items.map (fun i => (CodedItem.codeOf i, i))) c = lastItemWith items c := by
    intro items c
    have := dget_map_last items (fun i => CodedItem.codeOf i) (fun i => i) c
    simpa [lastItemWith, Option.map_id'] using this
  simp only [hget]
  apply List.map_congr_left
  intro c _
  cases lastItemWith old_items c with
  | none => rfl
  | some o =>
    cases lastItemWith new_items c with
    | none => rfl
    | some n =>
      simp only []
      have hiff : ((compare_texts simf (CodedItem.textsOf o) (CodedItem.textsOf n)
          threshold).any (fun td => td.status != "exact") = true) ↔
          (∃ td ∈ compare_texts simf (CodedItem.textsOf o) (CodedItem.textsOf n)
            threshold, td.status ≠ "exact") := by
        simp
      rw [if_congr hiff rfl rfl]

/-- The last question of `qs` whose normalized code equals `nc`. -/
def lastQuestionWith (qs : List Question) (nc : String) : Option Question :=
  (qs.filter (fun q => q.normalized_code = nc)).getLast?

/-- Support for C1: every code enumerated by `compare_surveys` occurs on
at least one side, so the crash arm of the embedding is unreachable. -/
theorem survey_union_code_has_a_side (qa qb : List Question) (nc : String)
    (h : nc ∈ dedupFirst (qa.map (fun q => q.normalized_code)
      ++ qb.map (fun q => q.normalized_code))) :
    lastQuestionWith qa nc ≠ none ∨ lastQuestionWith qb nc ≠ none := by
  have hmem := (mem_dedupFirst _ nc).mp h
  have hside := List.mem_append.mp hmem
  have key : ∀ qs : List Question, nc ∈ qs.map (fun q => q.normalized_code) →
      lastQuestionWith qs nc ≠ none := by
    intro qs hin
    rcases List.mem_map.mp hin with ⟨q, hq, hcode⟩
    unfold lastQuestionWith
    rw [Ne, List.getLast?_eq_none_iff, List.filter_eq_nil_iff]
    push_neg
    exact ⟨q, hq, by simpa using hcode⟩
  rcases hside with hin | hin
  · exact Or.inl (key qa hin)
  · exact Or.inr (key qb hin)

/-- C1: `compare_surveys` matches by normalized code.  Each side is
indexed by normalized code with the last-seen question winning on
duplicates, the union of normalized codes is enumerated in first-seen
order (all of side A's codes, then B-only codes in their order), and each
code yields: an added diff carrying B's element type when only B has it, a
removed diff carrying A's element type when only A has it, and otherwise
the `compare_questions` result with its code overwritten by the normalized
code.  (The fourth match arm is unreachable by
`survey_union_code_has_a_side`.) -/
theorem compare_surveys_spec (simf : String → String → ℚ)
    (qa qb : List Question) (sa sb : String) (threshold : ℚ) :
    compare_surveys simf qa qb sa sb threshold =
      { source_a := sa, source_b := sb,
        question_diffs := (dedupFirst (qa.map (fun q => q.normalized_code)
          ++ qb.map (fun q => q.normalized_code))).map (fun nc =>
          match lastQuestionWith qa nc, lastQuestionWith qb nc with
          | none, some q =>
            { code := nc, element_type := q.element_type, status := "added" }
          | some q, none =>
            { code := nc, element_type := q.element_type, status := "removed" }
          | some q1, some q2 =>
            { compare_questions simf q1 q2 threshold with code := nc }
          | none, none =>
            { code := nc, element_type := "", status := "added" }) } := by
  unfold compare_surveys
  have hget : ∀ (qs : List Question) (nc : String),
      dget (qs.map (fun q => (q.normalized_code, q))) nc = lastQuestionWith qs nc := by
    intro qs nc
    have := dget_map_last qs (fun q => q.normalized_code) (fun q => q) nc
    simpa [lastQuestionWith, Option.map_id'] using this
  simp only [hget]

/-! ## Section name normalization (src/sections.py)

The build pipeline is split into named stages mirroring the phases of
`build_section_normalizer`: raw-name collection, whitespace strip
(phase 1), explicit aliases (phase 2), fuzzy merge (phase 3) and the final
one-step application of the merge redirects. -/

/-- `SECTION_MERGE_THRESHOLD = 0.92`, as the exact rational 23/25 (stated
in lowest terms so the constant stays kernel-computable). -/
def SECTION_MERGE_THRESHOLD : ℚ := ⟨23, 25, by decide, by norm_num⟩

/-- `_strip_section_name`: `name.strip() if name else name`, with
`str.strip()` modelled character-wise. -/
def _strip_section_name (name : String) : String :=
  if name = "" then name
  else String.mk
    (((name.data.dropWhile Char.isWhitespace).reverse.dropWhile Char.isWhitespace).reverse)

/-- `q.section_name or "Other"` (Python `or` also replaces the empty
string). -/
def sectionNameOrOther (q : Question) : String :=
  match q.section_name with
  | some s => if s = "" then "Other" else s
  | none => "Other"

/-- Per-source first-seen unique raw section names (build lines 50-57). -/
def rawNamesBySource (all_sources : List (String × List Question)) :
    List (String × List String) :=
  all_sources.map (fun p => (p.1, dedupFirst (p.2.map sectionNameOrOther)))

/-- `_ordered_sources`: reference source moved to the front. -/
def _ordered_sources (sources : List String) (reference_source : String) :
    List String :=
  if sources.contains reference_source then
    reference_source :: sources.erase reference_source
  else sources

/-- All raw names in build order: reference source first, each source's
names in first-seen order. -/
def orderedRawNames (rbs : List (String × List String)) (ref : String) :
    List String :=
  ((_ordered_sources (keysOf rbs) ref).map (fun s => (dget rbs s).getD [])).flatten

/-- Phase 1: `name_map[raw] = stripped` over all raw names in order. -/
def phase1NameMap (rbs : List (String × List String)) (ref : String) :
    List (String × String) :=
  (orderedRawNames rbs ref).foldl
    (fun nm raw => dinsert nm raw (_strip_section_name raw)) []

/-- Phase 2: explicit aliases; the stripped candidate is looked up first,
then the raw name. -/
def phase2NameMap (aliases nm : List (String × String)) :
    List (String × String) :=
  nm.map (fun p => (p.1,
    match dget aliases p.2 with
    | some v => v
    | none =>
      match dget aliases p.1 with
      | some v => v
      | none => p.2))

/-- `name_map[raw]` (total on raw names seen during build; the fallback
mirrors `SectionNormalizer.normalize`'s defensive strip and is provably
never taken for built keys). -/
def lookupCanonical (nm : List (String × String)) (raw : String) : String :=
  (dget nm raw).getD (_strip_section_name raw)

/-- Distinct canonical names after phases 1+2, in first-seen order with
the reference source first (build lines 78-84). -/
def canonicalNamesOf (rbs : List (String × List String)) (ref : String)
    (nm2 : List (String × String)) : List String :=
  dedupFirst ((orderedRawNames rbs ref).map (lookupCanonical nm2))

/-- `ref_names` as computed inside the fuzzy merge (build lines 99-102). -/
def refNamesOf (rbs : List (String × List String)) (ref : String)
    (nm2 : List (String × String)) : List String :=
  ((dget rbs ref).getD []).map (lookupCanonical nm2)

/-- Phase 3 inner loop over `canonical_names[i+1:]` for a fixed
`name_a`. -/
def fuzzyInner (simf : String → String → ℚ) (refNames : List String)
    (name_a : String) :
    List String → List (String × String) → List (String × String)
  | [], merged => merged
  | name_b :: rest, merged =>
    if (keysOf merged).contains name_b then
      fuzzyInner simf refNames name_a rest merged
    else if SECTION_MERGE_THRESHOLD ≤ simf (pyLower name_a) (pyLower name_b) then
      fuzzyInner simf refNames name_a rest
        (if refNames.contains name_a then dinsert merged name_b name_a
         else if refNames.contains name_b then dinsert merged name_a name_b
         else dinsert merged name_b name_a)
    else fuzzyInner simf refNames name_a rest merged

/-- Phase 3 outer loop (build lines 86-109): names already merged away are
skipped. -/
def fuzzyOuter (simf : String → String → ℚ) (refNames : List String) :
    List String → List (String × String) → List (String × String)
  | [], merged => merged
  | name_a :: rest, merged =>
    if (keysOf merged).contains name_a then fuzzyOuter simf refNames rest merged
    else fuzzyOuter simf refNames rest (fuzzyInner simf refNames name_a rest merged)

/-- The `merged` redirect table produced by phase 3. -/
def mergedTableOf (simf : String → String → ℚ)
    (rbs : List (String × List String)) (ref : String)
    (nm2 : List (String × String)) : List (String × String) :=
  fuzzyOuter simf (refNamesOf rbs ref nm2) (canonicalNamesOf rbs ref nm2) []

/-- Application of the merge redirects to the name map (build lines
111-115): one lookup, not a transitive closure. -/
def applyMergedMap (merged nm : List (String × String)) :
    List (String × String) :=
  nm.map (fun p => (p.1,
    match dget merged p.2 with
    | some t => t
    | none => p.2))

/-- One step of the alias-display build (lines 117-124): `setdefault` plus
append-if-missing. -/
def addVariant (ad : List (String × List String)) (canonical stripped : String) :
    List (String × List String) :=
  let cur := (dget ad canonical).getD []
  dinsert ad canonical (if cur.contains stripped then cur else cur ++ [stripped])

/-- The reverse alias-display map `canonical → variant strippeds`. -/
def aliasDisplayOf (nm : List (String × String)) : List (String × List String) :=
  nm.foldl (fun ad p =>
    if _strip_section_name p.1 = p.2 then ad
    else addVariant ad p.2 (_strip_section_name p.1)) []

structure SectionNormalizer where
  name_map : List (String × String)
  alias_display : List (String × List String)
  raw_names_by_source : List (String × List String)
  reference_source : String
deriving Repr, DecidableEq

/-- `build_section_normalizer`. -/
def build_section_normalizer (simf : String → String → ℚ)
    (all_sources : List (String × List Question)) (reference_source : String)
    (aliases : List (String × String)) : SectionNormalizer :=
  let rbs := rawNamesBySource all_sources
  let nm1 := phase1NameMap rbs reference_source
  let nm2 := phase2NameMap aliases nm1
  let merged := mergedTableOf simf rbs reference_source nm2
  let nmFinal := applyMergedMap merged nm2
  { name_map := nmFinal, alias_display := aliasDisplayOf nmFinal,
    raw_names_by_source := rbs, reference_source := reference_source }

/-- `SectionNormalizer.normalize`. -/
def SectionNormalizer.normalize (n : SectionNormalizer) (raw_name : String) :
    String :=
  (dget n.name_map raw_name).getD (_strip_section_name raw_name)

/-! ### The merge table never chains (machinery for C6) -/

theorem dinsert_of_not_mem_keys (m : List (String × α)) (k : String) (v : α)
    (h : k ∉ keysOf m) : dinsert m k v = m ++ [(k, v)] := by
  unfold dinsert
  rw [if_neg]
  intro hc
  rcases List.any_eq_true.mp hc with ⟨p, hp, hpk⟩
  exact h (List.mem_map.mpr ⟨p, hp, by simpa using hpk⟩)

theorem keysOf_append (m₁ m₂ : List (String × α)) :
    keysOf (m₁ ++ m₂) = keysOf m₁ ++ keysOf m₂ := by
  simp [keysOf]

theorem dget_ne_none_of_mem_keys (m : List (String × α)) (k : String)
    (h : k ∈ keysOf m) : dget m k ≠ none := by
  rcases List.mem_map.mp h with ⟨p, hp, hpk⟩
  unfold dget
  rw [Ne, Option.map_eq_none', List.getLast?_eq_none_iff, List.filter_eq_nil_iff]
  push_neg
  exact ⟨p, hp, by simpa using hpk⟩

/-- Invariants of the inner merge loop: values stay off the key set, every
value is an already-processed outer name or the current one, and the
current outer name never becomes a key. -/
theorem fuzzyInner_invariants (simf : String → String → ℚ)
    (refNames : List String) (name_a : String) (bs : List String) :
    ∀ (merged : List (String × String)) (done tailA : List String),
      (∀ b ∈ bs, b ∈ tailA) →
      name_a ∉ tailA →
      (∀ x ∈ tailA, x ∉ done) →
      (∀ b ∈ bs, b ∈ refNames → name_a ∈ refNames) →
      (∀ p ∈ merged, p.2 ∉ keysOf merged) →
      (∀ p ∈ merged, p.2 ∈ done ∨ p.2 = name_a) →
      name_a ∉ keysOf merged →
      (∀ p ∈ fuzzyInner simf refNames name_a bs merged,
          p.2 ∉ keysOf (fuzzyInner simf refNames name_a bs merged)) ∧
      (∀ p ∈ fuzzyInner simf refNames name_a bs merged,
          p.2 ∈ done ∨ p.2 = name_a) ∧
      name_a ∉ keysOf (fuzzyInner simf refNames name_a bs merged) := by
  induction bs with
  | nil =>
    intro merged done tailA _ _ _ _ hW1 hW2 hW3
    exact ⟨hW1, hW2, hW3⟩
  | cons b rest ih =>
    intro merged done tailA hsub hnotin hdisj href hW1 hW2 hW3
    have hsubr : ∀ x ∈ rest, x ∈ tailA :=
      fun x hx => hsub x (List.mem_cons_of_mem _ hx)
    have hrefr : ∀ x ∈ rest, x ∈ refNames → name_a ∈ refNames :=
      fun x hx => href x (List.mem_cons_of_mem _ hx)
    rw [fuzzyInner]
    by_cases hkey : (keysOf merged).contains b
    · rw [if_pos hkey]
      exact ih merged done tailA hsubr hnotin hdisj hrefr hW1 hW2 hW3
    · rw [if_neg hkey]
      by_cases hsim : SECTION_MERGE_THRESHOLD ≤ simf (pyLower name_a) (pyLower b)
      · rw [if_pos hsim]
        have hbtail : b ∈ tailA := hsub b (List.mem_cons_self _ _)
        have hba : b ≠ name_a := fun hc => hnotin (hc ▸ hbtail)
        have hbkeys : b ∉ keysOf merged := by simpa using hkey
        have hcase : (if refNames.contains name_a then dinsert merged b name_a
            else if refNames.contains b then dinsert merged name_a b
            else dinsert merged b name_a) = merged ++ [(b, name_a)] := by
          by_cases hra : refNames.contains name_a
          · rw [if_pos hra, dinsert_of_not_mem_keys _ _ _ hbkeys]
          · rw [if_neg hra]
            by_cases hrb : refNames.contains b
            · exact absurd (href b (List.mem_cons_self _ _) (by simpa using hrb))
                (by simpa using hra)
            · rw [if_neg hrb, dinsert_of_not_mem_keys _ _ _ hbkeys]
        rw [hcase]
        have hW1n : ∀ p ∈ merged ++ [(b, name_a)],
            p.2 ∉ keysOf (merged ++ [(b, name_a)]) := by
          intro p hp
          rw [keysOf_append, List.mem_append]
          rcases List.mem_append.mp hp with hp | hp
          · rintro (hc | hc)
            · exact hW1 p hp hc
            · have hpb : p.2 = b := by simpa [keysOf] using hc
              rcases hW2 p hp with hd | hd
              · exact hdisj b hbtail (hpb ▸ hd)
              · exact hba (hpb ▸ hd ▸ rfl)
          · have hpv : p = (b, name_a) := by simpa using hp
            subst hpv
            rintro (hc | hc)
            · exact hW3 hc
            · have : name_a = b := by simpa [keysOf] using hc
              exact hba this.symm
        have hW2n : ∀ p ∈ merged ++ [(b, name_a)], p.2 ∈ done ∨ p.2 = name_a := by
          intro p hp
          rcases List.mem_append.mp hp with hp | hp
          · exact hW2 p hp
          · have hpv : p = (b, name_a) := by simpa using hp
            subst hpv
            exact Or.inr rfl
        have hW3n : name_a ∉ keysOf (merged ++ [(b, name_a)]) := by
          rw [keysOf_append, List.mem_append]
          rintro (hc | hc)
          · exact hW3 hc
          · have hab : name_a = b := by simpa [keysOf] using hc
            exact hba hab.symm
        exact ih (merged ++ [(b, name_a)]) done tailA hsubr hnotin hdisj hrefr
          hW1n hW2n hW3n
      · rw [if_neg hsim]
        exact ih merged done tailA hsubr hnotin hdisj hrefr hW1 hW2 hW3

/-- Invariant of the outer merge loop: in the final table no value is a
key, provided the names are distinct and every reference name precedes
every non-reference name. -/
theorem fuzzyOuter_invariant (simf : String → String → ℚ)
    (refNames : List String) (rest : List String) :
    ∀ (merged : List (String × String)) (done : List String),
      rest.Pairwise (fun x y => y ∈ refNames → x ∈ refNames) →
      rest.Nodup →
      (∀ x ∈ rest, x ∉ done) →
      (∀ p ∈ merged, p.2 ∉ keysOf merged) →
      (∀ p ∈ merged, p.2 ∈ done) →
      ∀ p ∈ fuzzyOuter simf refNames rest merged,
        p.2 ∉ keysOf (fuzzyOuter simf refNames rest merged) := by
  induction rest with
  | nil =>
    intro merged done _ _ _ hW1 _
    simpa [fuzzyOuter] using hW1
  | cons a rest ih =>
    intro merged done hpair hnodup hdisj hW1 hW2
    rcases List.pairwise_cons.mp hpair with ⟨hhead, htail⟩
    rcases List.nodup_cons.mp hnodup with ⟨hna, hnd⟩
    have hdisjr : ∀ x ∈ rest, x ∉ done ++ [a] := by
      intro x hx
      rw [List.mem_append]
      rintro (hc | hc)
      · exact hdisj x (List.mem_cons_of_mem _ hx) hc
      · exact hna ((by simpa using hc : x = a) ▸ hx)
    rw [fuzzyOuter]
    by_cases hkey : (keysOf merged).contains a
    · rw [if_pos hkey]
      exact ih merged (done ++ [a]) htail hnd hdisjr hW1
        (fun p hp => List.mem_append_left _ (hW2 p hp))
    · rw [if_neg hkey]
      have hinner := fuzzyInner_invariants simf refNames a rest merged done rest
        (fun b hb => hb) hna (fun x hx => hdisj x (List.mem_cons_of_mem _ hx))
        hhead hW1 (fun p hp => Or.inl (hW2 p hp)) (by simpa using hkey)
      rcases hinner with ⟨hI1, hI2, _⟩
      refine ih (fuzzyInner simf refNames a rest merged) (done ++ [a]) htail hnd
        hdisjr hI1 ?_
      intro p hp
      rcases hI2 p hp with h | h
      · exact List.mem_append_left _ h
      · simp [h]

/-- In `dedupFirst (A ++ B)`, whenever a later element lies in `A`, so
does every earlier one (`A`'s distinct elements form a prefix). -/
theorem dedupFirst_append_pairwise (A B : List String) :
    (dedupFirst (A ++ B)).Pairwise (fun x y => y ∈ A → x ∈ A) := by
  rcases dedupFirst_append A B with ⟨zs, heq, hzs⟩
  rw [heq]
  apply List.pairwise_append.mpr
  refine ⟨?_, ?_, ?_⟩
  · apply List.pairwise_of_forall_mem_list
    intro x hx y _ _
    exact (mem_dedupFirst A x).mp hx
  · apply List.pairwise_of_forall_mem_list
    intro x _ y hy hyin
    exact absurd hyin (hzs y hy)
  · intro x hx y _ _
    exact (mem_dedupFirst A x).mp hx

/-- The canonical-name list is ordered reference-names-first relative to
the `ref_names` list used by the fuzzy merge. -/
theorem canonicalNames_pairwise (rbs : List (String × List String))
    (ref : String) (nm2 : List (String × String)) :
    (canonicalNamesOf rbs ref nm2).Pairwise
      (fun x y => y ∈ refNamesOf rbs ref nm2 → x ∈ refNamesOf rbs ref nm2) := by
  by_cases href : (keysOf rbs).contains ref
  · have hcan : canonicalNamesOf rbs ref nm2 =
        dedupFirst (refNamesOf rbs ref nm2 ++
          ((((keysOf rbs).erase ref).map (fun s => (dget rbs s).getD [])).flatten).map
            (lookupCanonical nm2)) := by
      unfold canonicalNamesOf orderedRawNames _ordered_sources refNamesOf
      rw [if_pos href]
      simp [List.map_append]
    rw [hcan]
    exact dedupFirst_append_pairwise _ _
  · have hrefnil : refNamesOf rbs ref nm2 = [] := by
      unfold refNamesOf
      have : dget rbs ref = none := by
        apply dget_eq_none_of_not_mem_keys
        simpa using href
      rw [this]
      rfl
    apply List.pairwise_of_forall_mem_list
    intro x _ y _ hy
    rw [hrefnil] at hy
    simp at hy

/-- The fuzzy-merge redirect table never chains: no value of the `merged`
table is itself a key of the table. -/
theorem mergedTable_values_not_keys (simf : String → String → ℚ)
    (rbs : List (String × List String)) (ref : String)
    (nm2 : List (String × String)) :
    ∀ p ∈ mergedTableOf simf rbs ref nm2,
      p.2 ∉ keysOf (mergedTableOf simf rbs ref nm2) := by
  unfold mergedTableOf
  apply fuzzyOuter_invariant simf (refNamesOf rbs ref nm2)
    (canonicalNamesOf rbs ref nm2) [] []
  · exact canonicalNames_pairwise rbs ref nm2
  · unfold canonicalNamesOf
    exact nodup_dedupFirst _
  · simp
  · simp
  · simp

theorem dget_applyMergedMap (merged nm : List (String × String)) (k : String) :
    dget (applyMergedMap merged nm) k =
      ((nm.filter (fun p => p.1 = k)).getLast?).map (fun p =>
        match dget merged p.2 with
        | some t => t
        | none => p.2) := by
  unfold applyMergedMap
  exact dget_map_last nm (fun p => p.1) _ k

/-- C6 (amended): the canonical name the builder assigns to any raw name
seen during the build is never a name that the fuzzy-merge phase merged
into another name — chains of merge redirects cannot occur, so the
one-step application of the redirect table is already transitive.  (The
claim's further gloss "equivalently normalize(normalize(r)) ==
normalize(r)" is refuted separately: explicit alias chains, not merge
redirects, can break it.) -/
theorem section_normalizer_no_merge_chain (simf : String → String → ℚ)
    (all_sources : List (String × List Question)) (reference_source : String)
    (aliases : List (String × String)) (raw c : String)
    (h : dget (build_section_normalizer simf all_sources reference_source
      aliases).name_map raw = some c) :
    c ∉ keysOf (mergedTableOf simf (rawNamesBySource all_sources) reference_source
      (phase2NameMap aliases
        (phase1NameMap (rawNamesBySource all_sources) reference_source))) := by
  have hfinal : (build_section_normalizer simf all_sources reference_source
      aliases).name_map =
      applyMergedMap
        (mergedTableOf simf (rawNamesBySource all_sources) reference_source
          (phase2NameMap aliases
            (phase1NameMap (rawNamesBySource all_sources) reference_source)))
        (phase2NameMap aliases
          (phase1NameMap (rawNamesBySource all_sources) reference_source)) := rfl
  rw [hfinal, dget_applyMergedMap] at h
  rcases Option.map_eq_some'.mp h with ⟨p, _, hval⟩
  cases hm : dget (mergedTableOf simf (rawNamesBySource all_sources)
      reference_source (phase2NameMap aliases (phase1NameMap
        (rawNamesBySource all_sources) reference_source))) p.2 with
  | some t =>
    have hc : c = t := by rw [← hval]; simp [hm]
    rw [hc]
    exact mergedTable_values_not_keys simf _ _ _ (p.2, t)
      (mem_of_dget_eq_some _ _ _ hm)
  | none =>
    have hc : c = p.2 := by rw [← hval]; simp [hm]
    rw [hc]
    intro hmem
    exact dget_ne_none_of_mem_keys _ _ hmem hm

/-- Concrete data for the C6 witness: one source, one section. -/
def singleSectionSources : List (String × List Question) :=
  [("src", [{ id := 1, code := "Q1", element_type := "SingleChoice",
              section_name := some "Alpha" }])]

theorem section_normalizer_no_merge_chain_witness :
    dget (build_section_normalizer (fun _ _ => 0) singleSectionSources "src"
      []).name_map "Alpha" = some "Alpha" ∧
    "Alpha" ∉ keysOf (mergedTableOf (fun _ _ => 0)
      (rawNamesBySource singleSectionSources) "src"
      (phase2NameMap []
        (phase1NameMap (rawNamesBySource singleSectionSources) "src"))) :=
  ⟨by decide,
   section_normalizer_no_merge_chain (fun _ _ => 0) singleSectionSources "src"
     [] "Alpha" "Alpha" (by decide)⟩

/-- Concrete data for the C6 counterexample: one source with two sections
and an alias chain Alpha→Beta, Beta→Gamma. -/
def aliasChainSources : List (String × List Question) :=
  [("src", [{ id := 1, code := "Q1", element_type := "SingleChoice",
              section_name := some "Alpha" },
            { id := 2, code := "Q2", element_type := "SingleChoice",
              section_name := some "Beta" }])]

/-- C6: counterexample to the claim's "equivalently,
normalize(normalize(r)) == normalize(r) for every raw name r seen during
build".  With the explicit alias table {Alpha ↦ Beta, Beta ↦ Gamma} (no
fuzzy merges at all), the raw name Alpha normalizes to Beta, but
normalizing Beta again gives Gamma. -/
theorem section_normalize_not_idempotent_under_alias_chain :
    (build_section_normalizer (fun _ _ => 0) aliasChainSources "src"
      [("Alpha", "Beta"), ("Beta", "Gamma")]).normalize "Alpha" = "Beta" ∧
    (build_section_normalizer (fun _ _ => 0) aliasChainSources "src"
      [("Alpha", "Beta"), ("Beta", "Gamma")]).normalize
      ((build_section_normalizer (fun _ _ => 0) aliasChainSources "src"
        [("Alpha", "Beta"), ("Beta", "Gamma")]).normalize "Alpha") = "Gamma" ∧
    ("Gamma" : String) ≠ "Beta" := by
  refine ⟨?_, ?_, ?_⟩ <;> decide

/-! ## Master store reconstruction and the missing Question field (C5)

`dict_to_question` (src/master.py lines 119-137) constructs
`Question(id=0, code=code, element_type=..., texts=..., section_name=...,
section_index=d.get("section_index", 0))`.  The `Question` dataclass of
src/models.py declares no `section_index` field (see the structure above),
so in Python this constructor call raises `TypeError` on every input.  The
embedding below records the two field lists and the dataclass calling
convention that connects them. -/

/-- The field (keyword) names accepted by the `Question` dataclass
constructor, transcribed from src/models.py lines 97-110. -/
def questionDataclassFields : List String :=
  ["id", "code", "element_type", "texts", "hint_texts", "choices",
   "matrix_rows", "matrix_column_groups", "force_response", "section_name",
   "conditions"]

/-- The keyword arguments `dict_to_question` passes to the `Question`
constructor (src/master.py lines 121-128). -/
def dictToQuestionKwargs : List String :=
  ["id", "code", "element_type", "texts", "section_name", "section_index"]

/-- A Python dataclass constructor call succeeds only when every keyword
argument names a declared field; otherwise it raises `TypeError`. -/
def dataclassCallAccepts (fields kwargs : List String) : Bool :=
  kwargs.all (fun k => fields.contains k)

/-- C5: code_bug evidence.  `dict_to_question` always passes the keyword
`section_index` to `Question`, but the `Question` dataclass declares no
such field, so every call — and hence `master_to_questions` on every
non-empty master mapping — raises `TypeError` instead of reconstructing a
`Question` with the claimed `id=0`/`section_name=None`/`section_index=0`
defaults. -/
theorem dict_to_question_call_rejected :
    dataclassCallAccepts questionDataclassFields dictToQuestionKwargs = false ∧
    "section_index" ∈ dictToQuestionKwargs ∧
    "section_index" ∉ questionDataclassFields := by
  refine ⟨?_, ?_, ?_⟩ <;> decide

end Survalyzer
